import Mathlib

/-!
# Verification of the rhythm-game chart analyzer

Shallow embedding of the convergent analysis pipeline of `src/analyzer.js`
(energy extraction, onset detection, BPM estimation by interval clustering,
offset estimation, and constraint-driven note generation), together with
theorems settling the specification claims about it.

Modelling conventions:
* JS numbers are modelled as rationals (`ℚ`); frame indices and list
  positions as naturals; onset intervals as integers (JS subtraction).
* `Array.prototype.sort` is stable (ES2019); it is modelled by a stable
  insertion sort on the cluster list.
* `Math.random()` is modelled as an oracle `rnd : ℕ → ℚ` together with a
  call counter threaded through the note-generation state: the n-th call
  to the oracle returns `rnd n`.  Values of `Math.random()` lie in `[0,1)`.
* `x.toFixed(2)` on the nonnegative numbers stored in notes is rounding to
  the nearest multiple of 1/100 (ties up), `round2` below.
* `while` loops are modelled by well-founded recursion; where the JS loop
  diverges (documented junk branches below) the claims are settled via an
  explicit iteration of the loop body instead.
-/

/-- `avg` of `src/analyzer.js`: arithmetic mean of a list, `0` for the
empty list (`arr.length ? arr.reduce((a, b) => a + b, 0) / arr.length : 0`). -/
def avg (l : List ℚ) : ℚ :=
  if l.length = 0 then 0 else l.sum / l.length

/-- `Number(x.toFixed(2))` for the nonnegative chart values: rounding to the
nearest hundredth. -/
def round2 (x : ℚ) : ℚ := (round (x * 100) : ℤ) / 100

/-- `detectPeaks(energies, thresholdFactor)` of `src/analyzer.js`:
indices `1 ≤ i < length - 1` whose energy exceeds `avg * factor` and is a
local maximum (`energies[i] ≥ energies[i−1]` and `energies[i] ≥ energies[i+1]`). -/
def detectPeaks (energies : List ℚ) (thresholdFactor : ℚ) : List ℕ :=
  let threshold := avg energies * thresholdFactor
  (List.range' 1 (energies.length - 2)).filter fun i =>
    decide (threshold < energies.getD i 0 ∧
      energies.getD (i - 1) 0 ≤ energies.getD i 0 ∧
      energies.getD (i + 1) 0 ≤ energies.getD i 0)

theorem detectPeaks_mem (energies : List ℚ) (factor : ℚ) (i : ℕ) :
    i ∈ detectPeaks energies factor ↔
      (1 ≤ i ∧ i + 2 ≤ energies.length ∧
        avg energies * factor < energies.getD i 0 ∧
        energies.getD (i - 1) 0 ≤ energies.getD i 0 ∧
        energies.getD (i + 1) 0 ≤ energies.getD i 0) := by
  unfold detectPeaks
  simp only [List.mem_filter, List.mem_range'_1, decide_eq_true_eq]
  constructor
  · rintro ⟨⟨h1, h2⟩, h3, h4, h5⟩
    exact ⟨h1, by omega, h3, h4, h5⟩
  · rintro ⟨h1, h2, h3, h4, h5⟩
    exact ⟨⟨h1, by omega⟩, h3, h4, h5⟩

theorem detectPeaks_sorted (energies : List ℚ) (factor : ℚ) :
    (detectPeaks energies factor).Pairwise (· < ·) := by
  unfold detectPeaks
  exact (List.pairwise_lt_range' 1 (energies.length - 2)).filter _

/-- C7 — Onset detector characterization: `detectPeaks` returns exactly the
strictly ascending list of interior indices `1 ≤ i ≤ n−2` whose energy is
strictly above `mean × factor` and weakly above both neighbours; the two
boundary frames are never returned. -/
theorem C7_detectPeaks_characterization (energies : List ℚ) (factor : ℚ) :
    (∀ i : ℕ, i ∈ detectPeaks energies factor ↔
      (1 ≤ i ∧ i + 2 ≤ energies.length ∧
        avg energies * factor < energies.getD i 0 ∧
        energies.getD (i - 1) 0 ≤ energies.getD i 0 ∧
        energies.getD (i + 1) 0 ≤ energies.getD i 0)) ∧
    (detectPeaks energies factor).Pairwise (· < ·) ∧
    0 ∉ detectPeaks energies factor ∧
    energies.length - 1 ∉ detectPeaks energies factor := by
  refine ⟨detectPeaks_mem energies factor, detectPeaks_sorted energies factor, ?_, ?_⟩
  · intro h
    have := (detectPeaks_mem energies factor 0).mp h
    omega
  · intro h
    have := (detectPeaks_mem energies factor (energies.length - 1)).mp h
    omega

/-- One iteration of the inner loop of `getEnergySeries`: the sum of squared
samples of the `frameSize`-sample window starting at sample index `i`
(`const v = data[i + j] || 0; sum += v * v`, reads past the end of the
buffer yield `0`). -/
def frameEnergy (data : List ℚ) (i frameSize : ℕ) : ℚ :=
  (List.range frameSize).foldl (fun sum j => sum + data.getD (i + j) 0 * data.getD (i + j) 0) 0

/-- The outer loop of `getEnergySeries` (`for (let i = 0; i < data.length;
i += frameSize)`), pushing one energy and one start time per window.  The JS
loop never terminates when `frameSize = 0`; that branch returns junk `([], [])`
and is never used under the `0 < frameSize` hypothesis of the theorems. -/
def energyGo (data : List ℚ) (frameSize : ℕ) (sampleRate : ℚ) (i : ℕ) :
    List ℚ × List ℚ :=
  if _h0 : frameSize = 0 then ([], [])
  else if _h : i < data.length then
    let rest := energyGo data frameSize sampleRate (i + frameSize)
    (frameEnergy data i frameSize :: rest.1, ((i : ℚ) / sampleRate) :: rest.2)
  else ([], [])
termination_by data.length - i
decreasing_by omega

/-- `getEnergySeries(audioBuffer, frameSize)` of `src/analyzer.js`, on the
channel-0 sample list: per-window energies and window start times. -/
def getEnergySeries (data : List ℚ) (frameSize : ℕ) (sampleRate : ℚ) :
    List ℚ × List ℚ :=
  energyGo data frameSize sampleRate 0

theorem frameEnergy_eq_sum (data : List ℚ) (i fs : ℕ) :
    frameEnergy data i fs = ∑ j ∈ Finset.range fs, data.getD (i + j) 0 ^ 2 := by
  unfold frameEnergy
  have key : ∀ (l : List ℕ) (init : ℚ),
      l.foldl (fun sum j => sum + data.getD (i + j) 0 * data.getD (i + j) 0) init =
        init + (l.map (fun j => data.getD (i + j) 0 ^ 2)).sum := by
    intro l
    induction l with
    | nil => intro init; simp
    | cons a t ih =>
      intro init
      simp only [List.foldl_cons, List.map_cons, List.sum_cons, ih]
      ring
  rw [key, zero_add]
  induction fs with
  | zero => simp
  | succ n ih =>
    rw [List.range_succ, List.map_append, List.sum_append, Finset.sum_range_succ, ih]
    simp

theorem frameEnergy_nonneg (data : List ℚ) (i fs : ℕ) : 0 ≤ frameEnergy data i fs := by
  rw [frameEnergy_eq_sum]
  exact Finset.sum_nonneg fun j _ => sq_nonneg _

theorem ceil_div_step (m fs : ℕ) (hfs : 0 < fs) (hm : 0 < m) :
    (m - fs + fs - 1) / fs + 1 = (m + fs - 1) / fs := by
  rcases le_or_lt m fs with h | h
  · have h1 : m - fs + fs - 1 = fs - 1 := by omega
    have h2 : m + fs - 1 = (m - 1) + fs := by omega
    rw [h1, h2, Nat.add_div_right _ hfs, Nat.div_eq_of_lt (by omega),
      Nat.div_eq_of_lt (by omega)]
  · have h1 : m - fs + fs - 1 = m - 1 := by omega
    have h2 : m + fs - 1 = (m - fs - 1) + fs + fs := by omega
    have h3 : m - 1 = (m - fs - 1) + fs := by omega
    rw [h1, h2, h3, Nat.add_div_right _ hfs, Nat.add_div_right _ hfs,
      Nat.add_div_right _ hfs]

theorem energyGo_spec (fs : ℕ) (hfs : 0 < fs) (sr : ℚ) :
    ∀ (n : ℕ) (data : List ℚ) (i : ℕ), data.length - i ≤ n →
      (energyGo data fs sr i).1.length = (data.length - i + fs - 1) / fs ∧
      (energyGo data fs sr i).2.length = (data.length - i + fs - 1) / fs ∧
      (∀ k, k < (energyGo data fs sr i).1.length →
        (energyGo data fs sr i).1.get? k = some (frameEnergy data (i + k * fs) fs)) ∧
      (∀ k, k < (energyGo data fs sr i).2.length →
        (energyGo data fs sr i).2.get? k = some (((i + k * fs : ℕ) : ℚ) / sr)) := by
  intro n
  induction n with
  | zero =>
    intro data i hn
    have hle : ¬ i < data.length := by omega
    rw [energyGo]
    simp only [dif_neg (by omega : ¬ fs = 0), dif_neg hle]
    refine ⟨?_, ?_, ?_, ?_⟩ <;>
      simp [Nat.div_eq_of_lt, (by omega : data.length - i = 0), Nat.div_eq_of_lt (by omega : fs - 1 < fs)]
  | succ n ih =>
    intro data i hn
    rw [energyGo]
    simp only [dif_neg (by omega : ¬ fs = 0)]
    by_cases hil : i < data.length
    · have hrec := ih data (i + fs) (by omega)
      obtain ⟨hL1, hL2, hE, hT⟩ := hrec
      simp only [dif_pos hil]
      have hstep : (data.length - (i + fs) + fs - 1) / fs + 1 =
          (data.length - i + fs - 1) / fs := by
        have := ceil_div_step (data.length - i) fs hfs (by omega)
        have heq : data.length - (i + fs) = data.length - i - fs := by omega
        rw [heq]
        exact this
      refine ⟨?_, ?_, ?_, ?_⟩
      · simpa [hL1] using hstep
      · simpa [hL2] using hstep
      · intro k hk
        match k with
        | 0 => simp
        | k + 1 =>
          simp only [List.length_cons, List.get?_cons_succ] at hk ⊢
          have hk' : k < (energyGo data fs sr (i + fs)).1.length := by omega
          rw [hE k hk']
          congr 2
          ring
      · intro k hk
        match k with
        | 0 => simp
        | k + 1 =>
          simp only [List.length_cons, List.get?_cons_succ] at hk ⊢
          have hk' : k < (energyGo data fs sr (i + fs)).2.length := by omega
          rw [hT k hk']
          congr 2
          push_cast
          ring
    · simp only [dif_neg hil]
      refine ⟨?_, ?_, ?_, ?_⟩ <;>
        simp [(by omega : data.length - i = 0), Nat.div_eq_of_lt (by omega : fs - 1 < fs)]

/-- C8 — Energy extractor shape: for `sampleRate > 0` and `frameSize > 0`,
`getEnergySeries` returns energies and times of equal length
`⌈sampleCount / frameSize⌉`, with `times[k] = k·frameSize/sampleRate`
strictly increasing, and every energy equal to the (nonnegative) sum of
squared samples of its window, zero-padded past the end of the buffer. -/
theorem C8_energy_extractor_shape (data : List ℚ) (fs : ℕ) (sr : ℚ)
    (hfs : 0 < fs) (hsr : 0 < sr) :
    (getEnergySeries data fs sr).1.length = (getEnergySeries data fs sr).2.length ∧
    (getEnergySeries data fs sr).1.length = (data.length + fs - 1) / fs ∧
    (∀ k, k < (getEnergySeries data fs sr).2.length →
      (getEnergySeries data fs sr).2.get? k = some (((k * fs : ℕ) : ℚ) / sr)) ∧
    (∀ k a b, (getEnergySeries data fs sr).2.get? k = some a →
      (getEnergySeries data fs sr).2.get? (k + 1) = some b → a < b) ∧
    (∀ k, k < (getEnergySeries data fs sr).1.length →
      (getEnergySeries data fs sr).1.get? k =
        some (∑ j ∈ Finset.range fs, data.getD (k * fs + j) 0 ^ 2) ∧
      0 ≤ ∑ j ∈ Finset.range fs, data.getD (k * fs + j) 0 ^ 2) := by
  obtain ⟨hL1, hL2, hE, hT⟩ :=
    energyGo_spec fs hfs sr data.length data 0 (by omega)
  unfold getEnergySeries
  simp only [Nat.sub_zero] at hL1 hL2 hE hT
  refine ⟨by rw [hL1, hL2], hL1, ?_, ?_, ?_⟩
  · intro k hk
    have := hT k hk
    simpa using this
  · intro k a b ha hb
    have hkb : k + 1 < (energyGo data fs sr 0).2.length := by
      by_contra hcon
      rw [List.get?_eq_none.mpr (by omega)] at hb
      exact Option.noConfusion hb
    have h1 := hT k (by omega)
    have h2 := hT (k + 1) hkb
    simp only [Nat.zero_add] at h1 h2
    rw [h1] at ha
    rw [h2] at hb
    obtain rfl : a = ((k * fs : ℕ) : ℚ) / sr := by
      injection ha.symm
    obtain rfl : b = (((k + 1) * fs : ℕ) : ℚ) / sr := by
      injection hb.symm
    refine (div_lt_div_iff_of_pos_right hsr).mpr ?_
    have hlt : k * fs < (k + 1) * fs := by
      have : (k + 1) * fs = k * fs + fs := by ring
      omega
    exact_mod_cast hlt
  · intro k hk
    have := hE k hk
    simp only [Nat.zero_add] at this
    rw [frameEnergy_eq_sum] at this
    exact ⟨this, Finset.sum_nonneg fun j _ => sq_nonneg _⟩

theorem C8_energy_extractor_shape_witness :
    (getEnergySeries [1, 2, 3] 2 4).1.length = (getEnergySeries [1, 2, 3] 2 4).2.length ∧
    (getEnergySeries [1, 2, 3] 2 4).1.length = (([1, 2, 3] : List ℚ).length + 2 - 1) / 2 :=
  ⟨(C8_energy_extractor_shape [1, 2, 3] 2 4 (by norm_num) (by norm_num)).1,
   (C8_energy_extractor_shape [1, 2, 3] 2 4 (by norm_num) (by norm_num)).2.1⟩

/-- A cluster of onset intervals: the sticky first-seen representative
`value` and the number of attached intervals `count`. -/
structure Cluster where
  value : ℤ
  count : ℕ
deriving DecidableEq, Repr

/-- The body of the `intervals.forEach` loop of `clusterIntervals`: attach
`x` to the first cluster whose representative is within `tolerance`
(incrementing only its count and leaving the representative unchanged),
otherwise append a fresh cluster `{value: x, count: 1}`. -/
def addInterval (tolerance : ℤ) : List Cluster → ℤ → List Cluster
  | [], x => [⟨x, 1⟩]
  | c :: rest, x =>
    if |c.value - x| ≤ tolerance then ⟨c.value, c.count + 1⟩ :: rest
    else c :: addInterval tolerance rest x

/-- The cluster list built by `clusterIntervals` before sorting. -/
def buildClusters (tolerance : ℤ) (intervals : List ℤ) : List Cluster :=
  intervals.foldl (addInterval tolerance) []

/-- Stable insertion (descending by `count`, ties keep the earlier element
first) — one step of the model of the ES2019-stable
`clusters.sort((a, b) => b.count - a.count)`. -/
def insertByCountDesc (c : Cluster) : List Cluster → List Cluster
  | [] => [c]
  | e :: rest => if c.count < e.count then e :: insertByCountDesc c rest else c :: e :: rest

/-- Stable sort descending by `count`, modelling
`clusters.sort((a, b) => b.count - a.count)`. -/
def sortByCountDesc : List Cluster → List Cluster
  | [] => []
  | c :: rest => insertByCountDesc c (sortByCountDesc rest)

/-- `clusterIntervals(intervals, tolerance = 2)` of `src/analyzer.js`:
first-fit clustering of the intervals followed by a stable sort by
descending count; returns the representative of the first cluster of the
sorted list, or `none` (JS `null`) when there are no clusters. -/
def clusterIntervals (intervals : List ℤ) (tolerance : ℤ) : Option ℤ :=
  let clusters := sortByCountDesc (buildClusters tolerance intervals)
  clusters.head?.map Cluster.value

/-- The claim's description of the winner: scan the cluster list in
insertion order and keep the first cluster whose count is strictly larger
than the best so far — i.e. the first cluster attaining the maximal count. -/
def firstMaxByCount (clusters : List Cluster) : Option Cluster :=
  clusters.foldl
    (fun best c => match best with
      | none => some c
      | some b => if b.count < c.count then some c else some b)
    none

theorem nat_ceil_half_lt (x : ℚ) (hx : 1 < x) : ⌈x / 2⌉₊ < ⌈x⌉₊ := by
  have h2 : 2 ≤ ⌈x⌉₊ := by
    have : 1 < ⌈x⌉₊ := Nat.lt_ceil.mpr (by exact_mod_cast hx)
    omega
  have hxle : x ≤ (⌈x⌉₊ : ℚ) := Nat.le_ceil x
  have hle : ⌈x / 2⌉₊ ≤ ⌈x⌉₊ - 1 := by
    apply Nat.ceil_le.mpr
    have hc : ((⌈x⌉₊ - 1 : ℕ) : ℚ) = (⌈x⌉₊ : ℚ) - 1 := by
      push_cast [Nat.cast_sub (by omega : 1 ≤ ⌈x⌉₊)]
      ring
    rw [hc]
    have : (2 : ℚ) ≤ (⌈x⌉₊ : ℚ) := by exact_mod_cast h2
    linarith
  omega

/-- The body of the doubling loop of `normalizeBPM` (`while (bpm < 80) bpm *= 2`). -/
def doubleStep (b : ℚ) : ℚ := b * 2

/-- The doubling loop of `normalizeBPM`: `while (bpm < 80) bpm *= 2`.
For `bpm ≤ 0` the JS loop never exits (the guard stays true forever, see the
C10 theorem, stated via iterates of `doubleStep`); that branch returns the
junk value `b` and is never used under the positivity hypothesis. -/
def doubleUp (b : ℚ) : ℚ :=
  if h0 : 0 < b then
    if h : b < 80 then doubleUp (b * 2) else b
  else b
termination_by ⌈80 / b⌉₊
decreasing_by
  have heq : (80 : ℚ) / (b * 2) = 80 / b / 2 := by rw [div_mul_eq_div_div]
  rw [heq]
  exact nat_ceil_half_lt _ ((one_lt_div h0).mpr h)

/-- The halving loop of `normalizeBPM`: `while (bpm > 180) bpm /= 2`. -/
def halveDown (b : ℚ) : ℚ :=
  if h : 180 < b then halveDown (b / 2) else b
termination_by ⌈b / 180⌉₊
decreasing_by
  have heq : b / 2 / 180 = b / 180 / 2 := div_right_comm b 2 180
  rw [heq]
  exact nat_ceil_half_lt _ ((one_lt_div (by norm_num)).mpr h)

/-- `normalizeBPM(bpm)` of `src/analyzer.js`: double while below 80, halve
while above 180, then round to the nearest integer. -/
def normalizeBPM (b : ℚ) : ℤ := round (halveDown (doubleUp b))

theorem doubleUp_ge (b : ℚ) (hb : 0 < b) : 80 ≤ doubleUp b := by
  induction b using doubleUp.induct with
  | case1 b h0 h ih => rw [doubleUp, dif_pos h0, dif_pos h]; exact ih (by linarith)
  | case2 b h0 h => rw [doubleUp, dif_pos h0, dif_neg h]; linarith
  | case3 b h0 => exact absurd hb h0

theorem halveDown_le (b : ℚ) : halveDown b ≤ 180 := by
  induction b using halveDown.induct with
  | case1 b h ih => rw [halveDown, dif_pos h]; exact ih
  | case2 b h => rw [halveDown, dif_neg h]; linarith

theorem halveDown_ge (b : ℚ) (hb : 80 ≤ b) : 80 ≤ halveDown b := by
  induction b using halveDown.induct with
  | case1 b h ih => rw [halveDown, dif_pos h]; exact ih (by linarith)
  | case2 b h => rw [halveDown, dif_neg h]; linarith

theorem round_bounds (q : ℚ) (h1 : 80 ≤ q) (h2 : q ≤ 180) :
    80 ≤ round q ∧ round q ≤ 180 := by
  rw [round_eq]
  constructor
  · have : (80 : ℤ) = ⌊(80 : ℚ) + 1 / 2⌋ := by norm_num [Int.floor_eq_iff]
    rw [this]
    exact Int.floor_mono (by linarith)
  · have : (180 : ℤ) = ⌊(180 : ℚ) + 1 / 2⌋ := by norm_num [Int.floor_eq_iff]
    rw [this]
    exact Int.floor_mono (by linarith)

theorem normalizeBPM_bounds (b : ℚ) (hb : 0 < b) :
    80 ≤ normalizeBPM b ∧ normalizeBPM b ≤ 180 :=
  round_bounds _ (halveDown_ge _ (doubleUp_ge b hb)) (halveDown_le _)

/-- C10 — `normalizeBPM` totality under positivity: for every `bpm > 0` both
loops terminate (the Lean functions are total by well-founded recursion) and
the result is an integer in `[80, 180]`; for `bpm ≤ 0` the doubling loop
makes no progress — every iterate of its body keeps the guard `bpm < 80`
true, so the JS loop never exits. -/
theorem C10_normalizeBPM_totality :
    (∀ b : ℚ, 0 < b → 80 ≤ normalizeBPM b ∧ normalizeBPM b ≤ 180) ∧
    (∀ b : ℚ, b ≤ 0 → ∀ n : ℕ, (doubleStep^[n]) b < 80) := by
  constructor
  · exact fun b hb => normalizeBPM_bounds b hb
  · intro b hb n
    have key : ∀ m : ℕ, (doubleStep^[m]) b ≤ 0 := by
      intro m
      induction m with
      | zero => simpa using hb
      | succ m ih =>
        rw [Function.iterate_succ_apply']
        have hstep : doubleStep ((doubleStep^[m]) b) = (doubleStep^[m]) b * 2 := rfl
        rw [hstep]
        linarith
    linarith [key n]

theorem C10_normalizeBPM_totality_witness :
    (80 ≤ normalizeBPM 100 ∧ normalizeBPM 100 ≤ 180) ∧ (doubleStep^[3]) (-1) < 80 :=
  ⟨C10_normalizeBPM_totality.1 100 (by norm_num),
   C10_normalizeBPM_totality.2 (-1) (by norm_num) 3⟩

/-- The interval loop of `estimateBPMHighPrecision`:
`for (let i = 1; ...) intervals.push(peaks[i] - peaks[i-1])`. -/
def mkIntervals : List ℕ → List ℤ
  | [] => []
  | [_] => []
  | a :: b :: rest => ((b : ℤ) - (a : ℤ)) :: mkIntervals (b :: rest)

/-- `const energies = kickE.map((v, i) => v + (snareE[i] || 0))`: pointwise
sum of the kick- and snare-band energy sequences. -/
def combineEnergies (kickE snareE : List ℚ) : List ℚ :=
  kickE.enum.map fun p => p.2 + snareE.getD p.1 0

/-- `estimateBPMHighPrecision` of `src/analyzer.js`, taking the two
externally filtered energy sequences (the low-pass "kick" and band-pass
"snare" renderings are produced by the excluded filtering collaborator):
combine the energies, detect onsets (factor 1.05), fall back to 120 with
fewer than 2 onsets, cluster consecutive onset intervals, fall back to 120
on a null/zero winning interval (JS `if (!bestInterval)`), and otherwise
normalize `60 / (interval·frameSize/sampleRate)`. -/
def estimateBPMHighPrecision (kickE snareE : List ℚ) (frameSize : ℕ)
    (sampleRate : ℚ) : ℤ :=
  let energies := combineEnergies kickE snareE
  let peaks := detectPeaks energies (21 / 20)
  if peaks.length < 2 then 120
  else
    let intervals := mkIntervals peaks
    match clusterIntervals intervals 2 with
    | none => 120
    | some bestInterval =>
      if bestInterval = 0 then 120
      else
        let secondsPerBeat := (bestInterval : ℚ) * (frameSize : ℚ) / sampleRate
        normalizeBPM (60 / secondsPerBeat)

theorem addInterval_ne_nil (tol : ℤ) (cs : List Cluster) (x : ℤ) :
    addInterval tol cs x ≠ [] := by
  cases cs with
  | nil => simp [addInterval]
  | cons c rest =>
    rw [addInterval]
    split <;> simp

theorem foldl_addInterval_ne_nil (tol : ℤ) :
    ∀ (l : List ℤ) (cs : List Cluster), cs ≠ [] →
      l.foldl (addInterval tol) cs ≠ [] := by
  intro l
  induction l with
  | nil => intro cs h; simpa using h
  | cons x rest ih =>
    intro cs h
    rw [List.foldl_cons]
    exact ih _ (addInterval_ne_nil tol cs x)

theorem buildClusters_eq_nil_iff (tol : ℤ) (intervals : List ℤ) :
    buildClusters tol intervals = [] ↔ intervals = [] := by
  constructor
  · intro h
    cases intervals with
    | nil => rfl
    | cons x rest =>
      exfalso
      unfold buildClusters at h
      rw [List.foldl_cons] at h
      exact foldl_addInterval_ne_nil tol rest _ (addInterval_ne_nil tol [] x) h
  · rintro rfl
    rfl

theorem mem_insertByCountDesc (c x : Cluster) (l : List Cluster) :
    x ∈ insertByCountDesc c l ↔ x = c ∨ x ∈ l := by
  induction l with
  | nil => simp [insertByCountDesc]
  | cons e rest ih =>
    rw [insertByCountDesc]
    split
    · simp only [List.mem_cons, ih]
      tauto
    · simp only [List.mem_cons]

theorem mem_sortByCountDesc (x : Cluster) (l : List Cluster) :
    x ∈ sortByCountDesc l ↔ x ∈ l := by
  induction l with
  | nil => simp [sortByCountDesc]
  | cons c rest ih =>
    rw [sortByCountDesc, mem_insertByCountDesc]
    simp [ih]

theorem sortByCountDesc_eq_nil_iff (l : List Cluster) :
    sortByCountDesc l = [] ↔ l = [] := by
  cases l with
  | nil => simp [sortByCountDesc]
  | cons c rest =>
    constructor
    · intro h
      exfalso
      have : c ∈ sortByCountDesc (c :: rest) := by
        rw [mem_sortByCountDesc]
        exact List.mem_cons_self c rest
      rw [h] at this
      exact List.not_mem_nil c this
    · intro h
      exact absurd h (List.cons_ne_nil c rest)

theorem sortByCountDesc_head_spec :
    ∀ l : List Cluster, l ≠ [] →
      ∃ i c, l.get? i = some c ∧ (sortByCountDesc l).head? = some c ∧
        (∀ j d, j < i → l.get? j = some d → d.count < c.count) ∧
        (∀ d ∈ l, d.count ≤ c.count) := by
  intro l
  induction l with
  | nil => intro h; exact absurd rfl h
  | cons c rest ih =>
    intro _
    cases hrest : rest with
    | nil =>
      refine ⟨0, c, rfl, ?_, ?_, ?_⟩
      · simp [sortByCountDesc, insertByCountDesc]
      · intro j d hj; omega
      · intro d hd
        simp at hd
        simp [hd]
    | cons r t =>
      rw [← hrest]
      obtain ⟨i, d, hget, hhead, hfirst, hmax⟩ := ih (by simp [hrest])
      obtain ⟨srest, hsrest⟩ : ∃ srest, sortByCountDesc rest = d :: srest := by
        cases hs : sortByCountDesc rest with
        | nil => rw [hs] at hhead; exact absurd hhead (by simp)
        | cons a b =>
          rw [hs] at hhead
          simp only [List.head?_cons, Option.some.injEq] at hhead
          exact ⟨b, by rw [hhead]⟩
      by_cases hcd : c.count < d.count
      · refine ⟨i + 1, d, by simpa using hget, ?_, ?_, ?_⟩
        · rw [sortByCountDesc, hsrest, insertByCountDesc, if_pos hcd]
          simp
        · intro j e hj hje
          match j with
          | 0 =>
            simp only [List.get?_cons_zero, Option.some.injEq] at hje
            rw [← hje]
            exact hcd
          | j + 1 =>
            simp only [List.get?_cons_succ] at hje
            exact hfirst j e (by omega) hje
        · intro e he
          simp only [List.mem_cons] at he
          rcases he with rfl | he
          · exact le_of_lt hcd
          · exact hmax e he
      · refine ⟨0, c, rfl, ?_, ?_, ?_⟩
        · rw [sortByCountDesc, hsrest, insertByCountDesc, if_neg hcd]
          simp
        · intro j e hj; omega
        · intro e he
          simp only [List.mem_cons] at he
          rcases he with rfl | he
          · exact le_refl _
          · exact le_trans (hmax e he) (by omega)

theorem addInterval_value_mem (tol : ℤ) :
    ∀ (cs : List Cluster) (x : ℤ) (c : Cluster), c ∈ addInterval tol cs x →
      (∃ c' ∈ cs, c.value = c'.value) ∨ c.value = x := by
  intro cs
  induction cs with
  | nil =>
    intro x c hc
    simp only [addInterval, List.mem_singleton] at hc
    right
    rw [hc]
  | cons e rest ih =>
    intro x c hc
    rw [addInterval] at hc
    split at hc
    · simp only [List.mem_cons] at hc
      rcases hc with rfl | hc
      · exact Or.inl ⟨e, List.mem_cons_self e rest, rfl⟩
      · exact Or.inl ⟨c, List.mem_cons_of_mem e hc, rfl⟩
    · simp only [List.mem_cons] at hc
      rcases hc with rfl | hc
      · exact Or.inl ⟨c, List.mem_cons_self c rest, rfl⟩
      · rcases ih x c hc with ⟨c', hc', hv⟩ | hv
        · exact Or.inl ⟨c', List.mem_cons_of_mem e hc', hv⟩
        · exact Or.inr hv

theorem buildClusters_value_mem (tol : ℤ) (intervals : List ℤ) :
    ∀ c ∈ buildClusters tol intervals, c.value ∈ intervals := by
  have key : ∀ (l : List ℤ) (cs : List Cluster) (S : List ℤ),
      (∀ c ∈ cs, c.value ∈ S) → (∀ x ∈ l, x ∈ S) →
      ∀ c ∈ l.foldl (addInterval tol) cs, c.value ∈ S := by
    intro l
    induction l with
    | nil => intro cs S hcs _ c hc; exact hcs c hc
    | cons x rest ih =>
      intro cs S hcs hl c hc
      rw [List.foldl_cons] at hc
      refine ih (addInterval tol cs x) S ?_ (fun y hy => hl y (List.mem_cons_of_mem x hy)) c hc
      intro e he
      rcases addInterval_value_mem tol cs x e he with ⟨c', hc', hv⟩ | hv
      · rw [hv]; exact hcs c' hc'
      · rw [hv]; exact hl x (List.mem_cons_self x rest)
  exact key intervals [] intervals (by simp) (fun x hx => hx)

theorem addInterval_no_match (tol : ℤ) :
    ∀ (cs : List Cluster) (x : ℤ), (∀ c ∈ cs, ¬ |c.value - x| ≤ tol) →
      addInterval tol cs x = cs ++ [⟨x, 1⟩] := by
  intro cs
  induction cs with
  | nil => intro x _; rfl
  | cons e rest ih =>
    intro x h
    rw [addInterval, if_neg (h e (List.mem_cons_self e rest)), List.cons_append,
      ih x fun c hc => h c (List.mem_cons_of_mem e hc)]

theorem addInterval_first_match (tol : ℤ) :
    ∀ (pre : List Cluster) (c : Cluster) (post : List Cluster) (x : ℤ),
      (∀ p ∈ pre, ¬ |p.value - x| ≤ tol) → |c.value - x| ≤ tol →
      addInterval tol (pre ++ c :: post) x = pre ++ ⟨c.value, c.count + 1⟩ :: post := by
  intro pre
  induction pre with
  | nil =>
    intro c post x _ hc
    simp only [List.nil_append]
    rw [addInterval, if_pos hc]
  | cons p rest ih =>
    intro c post x hpre hc
    simp only [List.cons_append]
    rw [addInterval, if_neg (hpre p (List.mem_cons_self p rest)),
      ih c post x (fun q hq => hpre q (List.mem_cons_of_mem p hq)) hc]

/-- C6 — First-fit interval clustering: `addInterval` attaches each interval
to the first existing cluster within tolerance, incrementing only that
cluster's count and never moving its representative, and otherwise appends a
fresh `(x, 1)` cluster; `clusterIntervals` returns `none` (JS `null`) exactly
on the empty interval list, and otherwise the representative of the first
cluster (in insertion order) attaining the maximal count; when
`clusterIntervals` yields `none` the BPM estimator falls back to 120. -/
theorem C6_first_fit_clustering (tol : ℤ) (intervals : List ℤ) :
    (∀ (cs : List Cluster) (x : ℤ), (∀ c ∈ cs, ¬ |c.value - x| ≤ tol) →
      addInterval tol cs x = cs ++ [⟨x, 1⟩]) ∧
    (∀ (pre : List Cluster) (c : Cluster) (post : List Cluster) (x : ℤ),
      (∀ p ∈ pre, ¬ |p.value - x| ≤ tol) → |c.value - x| ≤ tol →
      addInterval tol (pre ++ c :: post) x = pre ++ ⟨c.value, c.count + 1⟩ :: post) ∧
    (clusterIntervals intervals tol = none ↔ intervals = []) ∧
    (intervals ≠ [] →
      ∃ i c, (buildClusters tol intervals).get? i = some c ∧
        clusterIntervals intervals tol = some c.value ∧
        (∀ j d, j < i → (buildClusters tol intervals).get? j = some d →
          d.count < c.count) ∧
        (∀ d ∈ buildClusters tol intervals, d.count ≤ c.count)) ∧
    (∀ (kickE snareE : List ℚ) (fs : ℕ) (sr : ℚ),
      clusterIntervals
        (mkIntervals (detectPeaks (combineEnergies kickE snareE) (21 / 20))) 2 = none →
      estimateBPMHighPrecision kickE snareE fs sr = 120) := by
  refine ⟨addInterval_no_match tol, addInterval_first_match tol, ?_, ?_, ?_⟩
  · unfold clusterIntervals
    rw [← buildClusters_eq_nil_iff tol intervals, ← sortByCountDesc_eq_nil_iff]
    cases sortByCountDesc (buildClusters tol intervals) <;> simp
  · intro hne
    have hbc : buildClusters tol intervals ≠ [] := by
      rw [ne_eq, buildClusters_eq_nil_iff]
      exact hne
    obtain ⟨i, c, hget, hhead, hfirst, hmax⟩ := sortByCountDesc_head_spec _ hbc
    refine ⟨i, c, hget, ?_, hfirst, hmax⟩
    unfold clusterIntervals
    show ((sortByCountDesc (buildClusters tol intervals)).head?.map Cluster.value) =
      some c.value
    rw [hhead]
    rfl
  · intro kickE snareE fs sr hnone
    unfold estimateBPMHighPrecision
    dsimp only
    rw [hnone]
    split <;> rfl

theorem C6_first_fit_clustering_witness :
    ∃ i c, (buildClusters 2 [5, 6, 10, 10]).get? i = some c ∧
      clusterIntervals [5, 6, 10, 10] 2 = some c.value ∧
      (∀ j d, j < i → (buildClusters 2 [5, 6, 10, 10]).get? j = some d →
        d.count < c.count) ∧
      (∀ d ∈ buildClusters 2 [5, 6, 10, 10], d.count ≤ c.count) :=
  (C6_first_fit_clustering 2 [5, 6, 10, 10]).2.2.2.1 (by decide)

/-- The inlier-deviation loop of `estimateOffsetSec`: for every onset, the
signed deviation (in seconds) of its beat position from the nearest integer
beat, kept only when its magnitude is below 0.12 s. -/
def offsetDiffs (peaks : List ℕ) (bpm : ℚ) (frameSize : ℕ) (sampleRate : ℚ) :
    List ℚ :=
  let secPerBeat := 60 / bpm
  peaks.filterMap fun p =>
    let time := (p : ℚ) * (frameSize : ℚ) / sampleRate
    let beat := time / secPerBeat
    let idealBeat : ℤ := round beat
    let diffBeat := beat - (idealBeat : ℚ)
    let diffSec := diffBeat * secPerBeat
    if |diffSec| < 12 / 100 then some diffSec else none

/-- `estimateOffsetSec(peaks, bpm, frameSize, sampleRate)` of
`src/analyzer.js`: the mean of the inlier deviations, replaced by the fixed
default 0.04 when there are fewer than 5 inliers (the JS non-finiteness
guard `!isFinite(offset)` can never fire over exact rationals: a mean of
finitely many rationals is always finite). -/
def estimateOffsetSec (peaks : List ℕ) (bpm : ℚ) (frameSize : ℕ)
    (sampleRate : ℚ) : ℚ :=
  let diffs := offsetDiffs peaks bpm frameSize sampleRate
  let offset := avg diffs
  if diffs.length < 5 then 1 / 25 else offset

theorem offsetDiffs_bound (peaks : List ℕ) (bpm : ℚ) (fs : ℕ) (sr : ℚ) :
    ∀ d ∈ offsetDiffs peaks bpm fs sr, |d| < 12 / 100 := by
  intro d hd
  unfold offsetDiffs at hd
  rw [List.mem_filterMap] at hd
  obtain ⟨p, _, hp⟩ := hd
  dsimp only at hp
  split at hp
  · cases hp
    assumption
  · exact absurd hp (by simp)

theorem abs_sum_le (c : ℚ) :
    ∀ l : List ℚ, (∀ x ∈ l, |x| ≤ c) → |l.sum| ≤ l.length * c := by
  intro l
  induction l with
  | nil => intro _; simp
  | cons x rest ih =>
    intro h
    rw [List.sum_cons]
    have h1 : |x| ≤ c := h x (List.mem_cons_self x rest)
    have h2 : |rest.sum| ≤ rest.length * c :=
      ih fun y hy => h y (List.mem_cons_of_mem x hy)
    calc |x + rest.sum| ≤ |x| + |rest.sum| := abs_add _ _
      _ ≤ c + rest.length * c := add_le_add h1 h2
      _ = (x :: rest).length * c := by
        rw [List.length_cons]
        push_cast
        ring

theorem abs_avg_le (c : ℚ) (hc : 0 ≤ c) (l : List ℚ) (h : ∀ x ∈ l, |x| ≤ c) :
    |avg l| ≤ c := by
  unfold avg
  split
  · simpa using hc
  · rename_i hne
    have hlen : 0 < (l.length : ℚ) := by
      have : l.length ≠ 0 := hne
      positivity
    rw [abs_div, abs_of_pos hlen, div_le_iff₀ hlen]
    calc |l.sum| ≤ l.length * c := abs_sum_le c l h
      _ = c * l.length := by ring

/-- C5 (counterexample) — the code has no "implausibly close to zero"
substitution: with five onsets landing exactly on integer beats the inlier
mean is 0 (as close to zero as possible), there are 5 ≥ 5 inliers, and
`estimateOffsetSec` returns that mean 0 rather than the default 0.04. -/
theorem C5_offset_no_near_zero_guard :
    estimateOffsetSec [0, 10, 20, 30, 40] 60 1 10 = 0 ∧
    (offsetDiffs [0, 10, 20, 30, 40] 60 1 10).length = 5 ∧
    (0 : ℚ) ≠ 1 / 25 := by
  have hd : offsetDiffs [0, 10, 20, 30, 40] 60 1 10 = [0, 0, 0, 0, 0] := by
    unfold offsetDiffs
    norm_num [List.filterMap_cons, round_eq]
  refine ⟨?_, by rw [hd]; rfl, by norm_num⟩
  unfold estimateOffsetSec
  rw [hd]
  norm_num [avg]

/-- C5 (amended) — Offset policy and bound: `estimateOffsetSec` returns
exactly the fallback 0.04 when fewer than 5 inlier deviations exist (over
exact rationals the mean is always finite, and there is no near-zero guard
in the code); otherwise it returns the arithmetic mean of the inlier
deviations, each inlier having |deviation| < 0.12 s, and the estimate
satisfies |offset| ≤ 0.15 (indeed ≤ 0.12). -/
theorem C5_offset_policy_and_bound (peaks : List ℕ) (bpm : ℚ) (fs : ℕ) (sr : ℚ) :
    ((offsetDiffs peaks bpm fs sr).length < 5 →
      estimateOffsetSec peaks bpm fs sr = 1 / 25) ∧
    (5 ≤ (offsetDiffs peaks bpm fs sr).length →
      estimateOffsetSec peaks bpm fs sr = avg (offsetDiffs peaks bpm fs sr) ∧
      (∀ d ∈ offsetDiffs peaks bpm fs sr, |d| < 12 / 100) ∧
      |estimateOffsetSec peaks bpm fs sr| ≤ 15 / 100) := by
  constructor
  · intro h
    unfold estimateOffsetSec
    rw [if_pos h]
  · intro h
    have heq : estimateOffsetSec peaks bpm fs sr = avg (offsetDiffs peaks bpm fs sr) := by
      unfold estimateOffsetSec
      rw [if_neg (by omega)]
    refine ⟨heq, offsetDiffs_bound peaks bpm fs sr, ?_⟩
    rw [heq]
    have hb : |avg (offsetDiffs peaks bpm fs sr)| ≤ 12 / 100 :=
      abs_avg_le _ (by norm_num) _
        fun d hd => le_of_lt (offsetDiffs_bound peaks bpm fs sr d hd)
    linarith

theorem C5_offset_policy_and_bound_witness :
    estimateOffsetSec [0, 10, 20, 30, 40] 60 1 10 =
      avg (offsetDiffs [0, 10, 20, 30, 40] 60 1 10) ∧
    |estimateOffsetSec [0, 10, 20, 30, 40] 60 1 10| ≤ 15 / 100 := by
  have h := (C5_offset_policy_and_bound [0, 10, 20, 30, 40] 60 1 10).2 (by
    have hd : offsetDiffs [0, 10, 20, 30, 40] 60 1 10 = [0, 0, 0, 0, 0] := by
      unfold offsetDiffs
      norm_num [List.filterMap_cons, round_eq]
    rw [hd]
    rfl)
  exact ⟨h.1, h.2.2⟩

/-- The payload of a chart note: a tap, or a long note carrying its end
beat (`endBeat` is only present on `type: "long"` notes in the JS objects). -/
inductive NoteKind
  | tap
  | long (endBeat : ℚ)
deriving DecidableEq, Repr

/-- A generated note: `{lane, beat, type, endBeat?}` with `beat` (and
`endBeat`) stored rounded to two decimals. -/
structure Note where
  lane : ℕ
  beat : ℚ
  kind : NoteKind
deriving DecidableEq, Repr

/-- `chooseLane()` of `src/analyzer.js` applied to one drawn random
`r ∈ [0,1)`: lane 1 for `r < 0.35`, lane 2 for `r < 0.70`, lane 0 for
`r < 0.85`, lane 3 otherwise. -/
def chooseLane (r : ℚ) : ℕ :=
  if r < 35 / 100 then 1
  else if r < 70 / 100 then 2
  else if r < 85 / 100 then 0
  else 3

/-- The structure record `{totalDurSec, introEndSec, outroStartSec}`
produced by `analyzeStructure` and consumed by `generateNotes`. -/
structure SongStructure where
  totalDurSec : ℚ
  introEndSec : ℚ
  outroStartSec : ℚ

/-- The mutable state of the candidate loop of `generateNotes`:
the accepted notes so far, the raw (unrounded) beat of the last accepted
note, the raw end beat of the last accepted long note, and the number of
`Math.random()` calls made so far (the random oracle's cursor). -/
structure GenState where
  allNotes : List Note
  lastBeat : ℚ
  lastLongEnd : ℚ
  rndCalls : ℕ

/-- The long-note conflict scan of `generateNotes`: some already accepted
long note on the chosen lane has `beat >= n.beat - 0.15 && beat <= n.endBeat
+ 0.15` (stored, i.e. rounded, bounds against the raw candidate beat). -/
def hasLongConflict (notes : List Note) (lane : ℕ) (beat : ℚ) : Bool :=
  notes.any fun n =>
    n.lane == lane &&
    match n.kind with
    | .tap => false
    | .long e => decide (n.beat - 15 / 100 ≤ beat ∧ beat ≤ e + 15 / 100)

/-- The read-only inputs of the candidate loop of `generateNotes`. -/
structure GenCtx where
  bpm : ℚ
  frameSize : ℕ
  sampleRate : ℚ
  offsetSec : ℚ
  song : SongStructure
  energies : List ℚ
  rnd : ℕ → ℚ

/-- The JS truthiness guard `g || 1` on the mean energy: `1` when the mean
is `0`, the mean itself otherwise. -/
def jsOrOne (g : ℚ) : ℚ := if g = 0 then 1 else g

/-- The energy ratio `generateNotes` computes for the candidate at position
`i` of the peak list: `(energies[i] || 0) / (globalAvgEnergy || 1)`.  Note
the lookup index is the loop counter `i` (the candidate's position in the
peak list), not the candidate's frame index `peaks[i]`. -/
def candidateEnergyRatio (energies : List ℚ) (i : ℕ) : ℚ :=
  energies.getD i 0 / jsOrOne (avg energies)

/-- The tail of one iteration of the candidate loop of `generateNotes`,
from the energy check onward: reject quiet candidates (`energyRatio < 0.15`,
where the energy is read at the candidate's position `i` in the peak list —
`energies[i] || 0` — and the mean is guarded by `|| 1`), update `lastBeat`,
then emit a long note (probability-0.20 draw, length `1 + random()*2`) if
eligible (`beat - lastLongEnd ≥ 0.5` and `energyRatio > 0.7`), otherwise a
tap; `k` is the random cursor after the lane draw. -/
def emitNote (ctx : GenCtx) (s : GenState) (i : ℕ) (lane : ℕ) (beat : ℚ)
    (k : ℕ) : GenState :=
  let canLong := 50 / 100 ≤ beat - s.lastLongEnd
  let energyRatio := candidateEnergyRatio ctx.energies i
  if energyRatio < 15 / 100 then { s with rndCalls := k }
  else if canLong ∧ 70 / 100 < energyRatio then
    if ctx.rnd k < 20 / 100 then
      let lengthBeat := 1 + ctx.rnd (k + 1) * 2
      let endBeat := beat + lengthBeat
      { allNotes := s.allNotes ++ [⟨lane, round2 beat, .long (round2 endBeat)⟩],
        lastBeat := beat, lastLongEnd := endBeat, rndCalls := k + 2 }
    else
      { allNotes := s.allNotes ++ [⟨lane, round2 beat, .tap⟩],
        lastBeat := beat, lastLongEnd := s.lastLongEnd, rndCalls := k + 1 }
  else
    { allNotes := s.allNotes ++ [⟨lane, round2 beat, .tap⟩],
      lastBeat := beat, lastLongEnd := s.lastLongEnd, rndCalls := k }

/-- One iteration of the candidate loop of `generateNotes` for the
candidate at position `cand.1` in the peak list with frame index `cand.2`:
skip pre-song/intro/outro candidates, enforce the 0.20-beat spacing since
the last accepted note, draw a lane, reject long-note conflicts, and hand
over to `emitNote` for the energy check and note emission. -/
def genStep (ctx : GenCtx) (s : GenState) (cand : ℕ × ℕ) : GenState :=
  let i := cand.1
  let p := cand.2
  let secPerBeat := 60 / ctx.bpm
  let rawTime := (p : ℚ) * (ctx.frameSize : ℚ) / ctx.sampleRate
  let time := rawTime - ctx.offsetSec
  if time < 0 then s
  else
    let beat := time / secPerBeat
    if time < ctx.song.introEndSec then s
    else if ctx.song.outroStartSec < time then s
    else if beat - s.lastBeat < 20 / 100 then s
    else
      let lane := chooseLane (ctx.rnd s.rndCalls)
      let k := s.rndCalls + 1
      if hasLongConflict s.allNotes lane beat then { s with rndCalls := k }
      else emitNote ctx s i lane beat k

/-- The index-parity filter `allNotes.filter((_, i) => i % 2 === 0)`. -/
def filterEvenIdx {α : Type} (l : List α) : List α :=
  (l.enum.filter fun q => decide (q.1 % 2 = 0)).map Prod.snd

/-- The even-position entries of a list (recursive form of `filterEvenIdx`). -/
def evenEntries {α : Type} : List α → List α
  | [] => []
  | a :: rest => a :: evenEntries rest.tail
termination_by l => l.length
decreasing_by simp; omega

/-- The odd-position entries of a list. -/
def oddEntries {α : Type} (l : List α) : List α := evenEntries l.tail

/-- The two difficulty tiers returned by `generateNotes`. -/
structure Chart where
  easy : List Note
  hard : List Note

/-- `generateNotes(peaks, bpm, frameSize, sampleRate, offsetSec, structure,
energies, times)` of `src/analyzer.js` (the trailing `times` argument is
never read by the function and is omitted): fold the candidate loop over the
indexed peak list and split the accepted notes into `easy` (even positional
indices) and `hard` (all accepted notes, in acceptance order). -/
def generateNotes (peaks : List ℕ) (bpm : ℚ) (frameSize : ℕ) (sampleRate : ℚ)
    (offsetSec : ℚ) (song : SongStructure) (energies : List ℚ)
    (rnd : ℕ → ℚ) : Chart :=
  let ctx : GenCtx := ⟨bpm, frameSize, sampleRate, offsetSec, song, energies, rnd⟩
  let final := peaks.enum.foldl (genStep ctx) ⟨[], -999, -999, 0⟩
  { easy := filterEvenIdx final.allNotes, hard := final.allNotes }

theorem evenEntries_cons {α : Type} (a : α) (rest : List α) :
    evenEntries (a :: rest) = a :: oddEntries rest := by
  rw [evenEntries]
  rfl

theorem oddEntries_cons {α : Type} (a : α) (rest : List α) :
    oddEntries (a :: rest) = evenEntries rest := rfl

theorem filterEvenIdx_enumFrom {α : Type} :
    ∀ (l : List α) (n : ℕ),
      ((l.enumFrom n).filter fun q => decide (q.1 % 2 = 0)).map Prod.snd =
        if n % 2 = 0 then evenEntries l else oddEntries l := by
  intro l
  induction l with
  | nil =>
    intro n
    split <;> simp [evenEntries, oddEntries]
  | cons a rest ih =>
    intro n
    rw [List.enumFrom_cons, List.filter_cons]
    by_cases hn : n % 2 = 0
    · rw [if_pos hn]
      have hnot : ¬ (n + 1) % 2 = 0 := by omega
      simp [hn, ih (n + 1), hnot, evenEntries_cons]
    · rw [if_neg hn]
      have hyes : (n + 1) % 2 = 0 := by omega
      simp [hn, ih (n + 1), hyes, oddEntries_cons]

theorem filterEvenIdx_eq_evenEntries {α : Type} (l : List α) :
    filterEvenIdx l = evenEntries l := by
  have h := filterEvenIdx_enumFrom l 0
  rw [if_pos (by norm_num)] at h
  exact h

theorem entries_get? {α : Type} :
    ∀ l : List α, (∀ k, (evenEntries l).get? k = l.get? (2 * k)) ∧
      (∀ k, (oddEntries l).get? k = l.get? (2 * k + 1)) := by
  intro l
  induction l with
  | nil => constructor <;> intro k <;> simp [evenEntries, oddEntries]
  | cons a rest ih =>
    constructor
    · intro k
      rw [evenEntries_cons]
      match k with
      | 0 => simp
      | k + 1 =>
        rw [List.get?_cons_succ, ih.2 k,
          (by ring : 2 * (k + 1) = (2 * k + 1) + 1), List.get?_cons_succ]
    · intro k
      rw [oddEntries_cons, ih.1 k, List.get?_cons_succ]

theorem entries_length {α : Type} :
    ∀ l : List α, (evenEntries l).length = (l.length + 1) / 2 ∧
      (oddEntries l).length = l.length / 2 := by
  intro l
  induction l with
  | nil => constructor <;> simp [evenEntries, oddEntries]
  | cons a rest ih =>
    constructor
    · rw [evenEntries_cons, List.length_cons, List.length_cons, ih.2]
      omega
    · rw [oddEntries_cons, List.length_cons, ih.1]

/-- C9 — Easy is the even-index decimation of hard: in every chart produced
by `generateNotes`, `easy[k]` is the identical note `hard[2k]` (same lane,
beat, type and end beat) for every position `k`, and
`|easy| = ⌈|hard| / 2⌉`; `hard` is the full accepted note list in
acceptance order (it is the fold's accumulator itself). -/
theorem C9_easy_even_decimation (peaks : List ℕ) (bpm : ℚ) (fs : ℕ)
    (sr off : ℚ) (song : SongStructure) (energies : List ℚ) (rnd : ℕ → ℚ) :
    (∀ k, (generateNotes peaks bpm fs sr off song energies rnd).easy.get? k =
      (generateNotes peaks bpm fs sr off song energies rnd).hard.get? (2 * k)) ∧
    (generateNotes peaks bpm fs sr off song energies rnd).easy.length =
      ((generateNotes peaks bpm fs sr off song energies rnd).hard.length + 1) / 2 := by
  have heq : (generateNotes peaks bpm fs sr off song energies rnd).easy =
      filterEvenIdx (generateNotes peaks bpm fs sr off song energies rnd).hard := rfl
  rw [heq, filterEvenIdx_eq_evenEntries]
  exact ⟨(entries_get? _).1, (entries_length _).1⟩

theorem round_mono_rat {x y : ℚ} (h : x ≤ y) : round x ≤ round y := by
  rw [round_eq, round_eq]
  exact Int.floor_mono (by linarith)

theorem round2_add_fifth {x y : ℚ} (h : y + 1 / 5 ≤ x) :
    round2 y + 1 / 5 ≤ round2 x := by
  unfold round2
  have h1 : round (y * 100) + 20 ≤ round (x * 100) := by
    have h2 : round (y * 100 + (20 : ℤ)) ≤ round (x * 100) :=
      round_mono_rat (by push_cast; linarith)
    rw [round_add_int] at h2
    exact h2
  have h3 : ((round (y * 100) + 20 : ℤ) : ℚ) ≤ ((round (x * 100) : ℤ) : ℚ) := by
    exact_mod_cast h1
  push_cast at h3
  linarith

theorem abs_round2_sub (x : ℚ) : |round2 x - x| ≤ 1 / 200 := by
  unfold round2
  have h := abs_sub_round (x * 100)
  rw [abs_sub_comm] at h
  have h2 : |((round (x * 100) : ℤ) : ℚ) - x * 100| ≤ 1 / 2 := h
  have h3 : ((round (x * 100) : ℤ) : ℚ) / 100 - x =
      (((round (x * 100) : ℤ) : ℚ) - x * 100) / 100 := by ring
  rw [h3, abs_div]
  rw [abs_of_pos (by norm_num : (0 : ℚ) < 100)]
  linarith [abs_nonneg (((round (x * 100) : ℤ) : ℚ) - x * 100)]

theorem emitNote_cases (ctx : GenCtx) (s : GenState) (i lane : ℕ) (beat : ℚ)
    (k : ℕ) :
    (emitNote ctx s i lane beat k =
        { allNotes := s.allNotes, lastBeat := s.lastBeat,
          lastLongEnd := s.lastLongEnd, rndCalls := k }) ∨
    (∃ k', emitNote ctx s i lane beat k =
        { allNotes := s.allNotes ++ [⟨lane, round2 beat, .tap⟩], lastBeat := beat,
          lastLongEnd := s.lastLongEnd, rndCalls := k' }) ∨
    (∃ k' j, 50 / 100 ≤ beat - s.lastLongEnd ∧
      emitNote ctx s i lane beat k =
        { allNotes := s.allNotes ++
            [⟨lane, round2 beat, .long (round2 (beat + (1 + ctx.rnd j * 2)))⟩],
          lastBeat := beat, lastLongEnd := beat + (1 + ctx.rnd j * 2),
          rndCalls := k' }) := by
  unfold emitNote
  dsimp only
  split_ifs with h1 h2 h3
  · exact Or.inl rfl
  · exact Or.inr (Or.inr ⟨k + 2, k + 1, h2.1, rfl⟩)
  · exact Or.inr (Or.inl ⟨k + 1, rfl⟩)
  · exact Or.inr (Or.inl ⟨k, rfl⟩)

theorem genStep_cases (ctx : GenCtx) (s : GenState) (cand : ℕ × ℕ) :
    (∃ k', genStep ctx s cand =
        { allNotes := s.allNotes, lastBeat := s.lastBeat,
          lastLongEnd := s.lastLongEnd, rndCalls := k' }) ∨
    (∃ k' lane b, 20 / 100 ≤ b - s.lastBeat ∧
      genStep ctx s cand =
        { allNotes := s.allNotes ++ [⟨lane, round2 b, .tap⟩], lastBeat := b,
          lastLongEnd := s.lastLongEnd, rndCalls := k' }) ∨
    (∃ k' lane b j, 20 / 100 ≤ b - s.lastBeat ∧ 50 / 100 ≤ b - s.lastLongEnd ∧
      genStep ctx s cand =
        { allNotes := s.allNotes ++
            [⟨lane, round2 b, .long (round2 (b + (1 + ctx.rnd j * 2)))⟩],
          lastBeat := b, lastLongEnd := b + (1 + ctx.rnd j * 2),
          rndCalls := k' }) := by
  unfold genStep
  dsimp only
  split_ifs with h1 h2 h3 h4 h5
  · exact Or.inl ⟨s.rndCalls, rfl⟩
  · exact Or.inl ⟨s.rndCalls, rfl⟩
  · exact Or.inl ⟨s.rndCalls, rfl⟩
  · exact Or.inl ⟨s.rndCalls, rfl⟩
  · exact Or.inl ⟨s.rndCalls + 1, rfl⟩
  · rcases emitNote_cases ctx s cand.1 (chooseLane (ctx.rnd s.rndCalls))
      (((cand.2 : ℚ) * (ctx.frameSize : ℚ) / ctx.sampleRate - ctx.offsetSec) /
        (60 / ctx.bpm)) (s.rndCalls + 1) with h | ⟨k', h⟩ | ⟨k', j, hc, h⟩
    · exact Or.inl ⟨s.rndCalls + 1, h⟩
    · exact Or.inr (Or.inl ⟨k', _, _, by linarith, h⟩)
    · exact Or.inr (Or.inr ⟨k', _, _, j, by linarith, hc, h⟩)

theorem foldl_inv {σ β : Type} (step : σ → β → σ) (Inv : σ → Prop)
    (h : ∀ s b, Inv s → Inv (step s b)) :
    ∀ (l : List β) (s : σ), Inv s → Inv (l.foldl step s) := by
  intro l
  induction l with
  | nil => intro s hs; exact hs
  | cons b rest ih =>
    intro s hs
    rw [List.foldl_cons]
    exact ih _ (h s b hs)

/-- The C2 loop invariant: the accepted notes are chained with stored-beat
gaps of at least 0.20, and the last accepted note stores the rounded
`lastBeat`. -/
def SpacingInv (s : GenState) : Prop :=
  s.allNotes.Chain' (fun a b => a.beat + 1 / 5 ≤ b.beat) ∧
  (∀ n, s.allNotes.getLast? = some n → n.beat = round2 s.lastBeat)

theorem spacingInv_push (s : GenState) (note : Note) (b : ℚ)
    (hinv : SpacingInv s) (hb : 20 / 100 ≤ b - s.lastBeat)
    (hbeat : note.beat = round2 b) :
    (s.allNotes ++ [note]).Chain' (fun a c => a.beat + 1 / 5 ≤ c.beat) ∧
    (∀ n, (s.allNotes ++ [note]).getLast? = some n → n.beat = round2 b) := by
  obtain ⟨hchain, hlast⟩ := hinv
  constructor
  · rw [List.chain'_append]
    refine ⟨hchain, List.chain'_singleton note, ?_⟩
    intro x hx y hy
    simp only [List.head?_cons, Option.mem_def, Option.some.injEq] at hy
    have hx' : s.allNotes.getLast? = some x := hx
    have hxb : x.beat = round2 s.lastBeat := hlast x hx'
    rw [hxb, ← hy, hbeat]
    exact round2_add_fifth (by linarith)
  · intro n hn
    rw [List.getLast?_concat] at hn
    injection hn with hn
    rw [← hn, hbeat]

theorem genStep_spacingInv (ctx : GenCtx) (s : GenState) (cand : ℕ × ℕ)
    (hinv : SpacingInv s) : SpacingInv (genStep ctx s cand) := by
  rcases genStep_cases ctx s cand with ⟨k', h⟩ | ⟨k', lane, b, hb, h⟩ |
    ⟨k', lane, b, j, hb, _, h⟩
  · rw [h]
    exact ⟨hinv.1, hinv.2⟩
  · rw [h]
    exact spacingInv_push s _ b hinv hb rfl
  · rw [h]
    exact spacingInv_push s _ b hinv hb rfl

/-- C2 — Spacing invariant: in every chart produced by `generateNotes`,
consecutive notes of the hard chart (in list order) have stored beats at
least 0.20 apart: `hard[i+1].beat − hard[i].beat ≥ 0.20`. -/
theorem C2_spacing_invariant (peaks : List ℕ) (bpm : ℚ) (fs : ℕ)
    (sr off : ℚ) (song : SongStructure) (energies : List ℚ) (rnd : ℕ → ℚ) :
    (generateNotes peaks bpm fs sr off song energies rnd).hard.Chain'
      (fun a b => a.beat + 1 / 5 ≤ b.beat) := by
  have key : SpacingInv (peaks.enum.foldl
      (genStep ⟨bpm, fs, sr, off, song, energies, rnd⟩) ⟨[], -999, -999, 0⟩) := by
    apply foldl_inv _ SpacingInv
      (fun s c hs => genStep_spacingInv _ s c hs)
    constructor
    · exact List.chain'_nil
    · intro n hn
      exact absurd hn (by simp)
  exact key.1

/-- Margin-separation of two long notes in list order: if both `a` and `b`
are long, the margin-expanded span of `a` ends strictly before the one of
`b` begins. -/
def LongSep (a b : Note) : Prop :=
  ∀ ea eb, a.kind = .long ea → b.kind = .long eb →
    ea + 15 / 100 < b.beat - 15 / 100

/-- The C1 loop invariant: already accepted long notes are pairwise
margin-separated, and every stored long-note end is at most `lastLongEnd`
plus the rounding slack 1/200. -/
def LongInv (s : GenState) : Prop :=
  s.allNotes.Pairwise LongSep ∧
  ∀ n ∈ s.allNotes, ∀ e, n.kind = .long e → e ≤ s.lastLongEnd + 1 / 200

theorem genStep_longInv (ctx : GenCtx) (s : GenState) (cand : ℕ × ℕ)
    (hrnd : ∀ j, 0 ≤ ctx.rnd j ∧ ctx.rnd j < 1)
    (hinv : LongInv s) : LongInv (genStep ctx s cand) := by
  obtain ⟨hpair, hend⟩ := hinv
  rcases genStep_cases ctx s cand with ⟨k', h⟩ | ⟨k', lane, b, hb, h⟩ |
    ⟨k', lane, b, j, hb, hcl, h⟩
  · rw [h]
    exact ⟨hpair, hend⟩
  · rw [h]
    constructor
    · rw [List.pairwise_append]
      refine ⟨hpair, List.pairwise_singleton _ _, ?_⟩
      intro x _ y hy ea eb _ hyk
      simp only [List.mem_singleton] at hy
      rw [hy] at hyk
      exact absurd hyk (by simp)
    · intro n hn e he
      rcases List.mem_append.mp hn with hn | hn
      · exact hend n hn e he
      · simp only [List.mem_singleton] at hn
        rw [hn] at he
        exact absurd he (by simp)
  · have hlen1 : 1 ≤ 1 + ctx.rnd j * 2 := by linarith [(hrnd j).1]
    have hround_b := abs_round2_sub b
    have hround_e := abs_round2_sub (b + (1 + ctx.rnd j * 2))
    rw [abs_le] at hround_b hround_e
    rw [h]
    constructor
    · rw [List.pairwise_append]
      refine ⟨hpair, List.pairwise_singleton _ _, ?_⟩
      intro x hx y hy ea eb hxk hyk
      simp only [List.mem_singleton] at hy
      have hxe : ea ≤ s.lastLongEnd + 1 / 200 := hend x hx ea hxk
      rw [hy] at hyk
      simp only [Note.mk.injEq, NoteKind.long.injEq] at hyk
      have hyb : y.beat = round2 b := by rw [hy]
      rw [hyb]
      linarith
    · intro n hn e he
      rcases List.mem_append.mp hn with hn | hn
      · have := hend n hn e he
        linarith
      · simp only [List.mem_singleton] at hn
        rw [hn] at he
        simp only [NoteKind.long.injEq] at he
        rw [← he]
        linarith

/-- C1 — Long-note isolation: in every chart produced by `generateNotes`
(random draws in `[0,1)`), any two distinct long notes sharing a lane have
disjoint margin-expanded spans `[beat − 0.15, endBeat + 0.15]`: the span of
one ends strictly before the span of the other begins. -/
theorem C1_long_note_isolation (peaks : List ℕ) (bpm : ℚ) (fs : ℕ)
    (sr off : ℚ) (song : SongStructure) (energies : List ℚ) (rnd : ℕ → ℚ)
    (hrnd : ∀ j, 0 ≤ rnd j ∧ rnd j < 1) :
    ∀ i j a b ea eb, i ≠ j →
      (generateNotes peaks bpm fs sr off song energies rnd).hard.get? i = some a →
      (generateNotes peaks bpm fs sr off song energies rnd).hard.get? j = some b →
      a.lane = b.lane → a.kind = .long ea → b.kind = .long eb →
      (ea + 15 / 100 < b.beat - 15 / 100 ∨ eb + 15 / 100 < a.beat - 15 / 100) := by
  have key : LongInv (peaks.enum.foldl
      (genStep ⟨bpm, fs, sr, off, song, energies, rnd⟩) ⟨[], -999, -999, 0⟩) := by
    apply foldl_inv _ LongInv
      (fun s c hs => genStep_longInv _ s c hrnd hs)
    exact ⟨List.Pairwise.nil, by simp⟩
  have hpair : (generateNotes peaks bpm fs sr off song energies rnd).hard.Pairwise
      LongSep := key.1
  intro i j a b ea eb hij ha hb hlane hak hbk
  rw [List.pairwise_iff_get] at hpair
  obtain ⟨hia, ha'⟩ := List.get?_eq_some.mp ha
  obtain ⟨hjb, hb'⟩ := List.get?_eq_some.mp hb
  rcases Nat.lt_or_ge i j with hlt | hge
  · left
    have := hpair ⟨i, hia⟩ ⟨j, hjb⟩ hlt
    rw [ha', hb'] at this
    exact this ea eb hak hbk
  · right
    have hjlt : j < i := by omega
    have := hpair ⟨j, hjb⟩ ⟨i, hia⟩ hjlt
    rw [ha', hb'] at this
    exact this eb ea hbk hak

theorem c1_eval_step1 :
    genStep ⟨60, 1, 10, 0, ⟨100, 0, 100⟩, [1, 1], fun _ => 0⟩
      ⟨[], -999, -999, 0⟩ (0, 10) =
      ⟨[⟨1, 1, .long 2⟩], 1, 2, 3⟩ := by
  unfold genStep emitNote
  norm_num [chooseLane, hasLongConflict, candidateEnergyRatio, jsOrOne, avg, round2, round_eq]

theorem c1_eval_step2 :
    genStep ⟨60, 1, 10, 0, ⟨100, 0, 100⟩, [1, 1], fun _ => 0⟩
      ⟨[⟨1, 1, .long 2⟩], 1, 2, 3⟩ (1, 40) =
      ⟨[⟨1, 1, .long 2⟩, ⟨1, 4, .long 5⟩], 4, 5, 6⟩ := by
  unfold genStep emitNote
  norm_num [chooseLane, hasLongConflict, candidateEnergyRatio, jsOrOne, avg, round2, round_eq]

theorem c1_eval :
    (generateNotes [10, 40] 60 1 10 0 ⟨100, 0, 100⟩ [1, 1] (fun _ => 0)).hard =
      [⟨1, 1, .long 2⟩, ⟨1, 4, .long 5⟩] := by
  show (List.foldl (genStep ⟨60, 1, 10, 0, ⟨100, 0, 100⟩, [1, 1], fun _ => 0⟩)
      ⟨[], -999, -999, 0⟩ ([10, 40] : List ℕ).enum).allNotes = _
  have henum : ([10, 40] : List ℕ).enum = [(0, 10), (1, 40)] := rfl
  rw [henum, List.foldl_cons, c1_eval_step1, List.foldl_cons, c1_eval_step2,
    List.foldl_nil]

theorem C1_long_note_isolation_witness :
    ((2 : ℚ) + 15 / 100 < (4 : ℚ) - 15 / 100 ∨
      (5 : ℚ) + 15 / 100 < (1 : ℚ) - 15 / 100) :=
  C1_long_note_isolation [10, 40] 60 1 10 0 ⟨100, 0, 100⟩ [1, 1] (fun _ => 0)
    (fun _ => ⟨le_refl 0, by norm_num⟩) 0 1 ⟨1, 1, .long 2⟩ ⟨1, 4, .long 5⟩ 2 5
    (by norm_num) (by rw [c1_eval]; rfl) (by rw [c1_eval]; rfl) rfl rfl rfl

theorem c4_eval_step :
    genStep ⟨60, 1, 1, 0, ⟨100, 0, 100⟩, [0, 0, 9], fun _ => 0⟩
      ⟨[], -999, -999, 0⟩ (0, 2) = ⟨[], -999, -999, 1⟩ := by
  unfold genStep emitNote
  norm_num [chooseLane, hasLongConflict, candidateEnergyRatio, jsOrOne, avg,
    round2, round_eq]

/-- C4 — Candidate energy lookup (code bug): `generateNotes` reads the
energy at the candidate's position in the peak list (`energies[i]` with `i`
the loop counter), not at the candidate's frame index (`energies[peaks[i]]`).
With `peaks = [2]` and `energies = [0, 0, 9]` the candidate's frame ratio is
`9 / 3 = 3` (well above both the 0.15 quiet threshold and the 0.7 loud
threshold), yet the code computes `energies[0] / 3 = 0` and rejects the
candidate as too quiet, so the chart comes out empty. -/
theorem C4_energy_lookup_uses_list_position :
    candidateEnergyRatio [0, 0, 9] 0 = 0 ∧
    ([0, 0, 9] : List ℚ).getD (([2] : List ℕ).getD 0 0) 0 /
      jsOrOne (avg [0, 0, 9]) = 3 ∧
    (0 : ℚ) < 15 / 100 ∧ (7 : ℚ) / 10 < 3 ∧
    (generateNotes [2] 60 1 1 0 ⟨100, 0, 100⟩ [0, 0, 9] (fun _ => 0)).hard = [] := by
  refine ⟨?_, ?_, by norm_num, by norm_num, ?_⟩
  · norm_num [candidateEnergyRatio, jsOrOne, avg]
  · norm_num [jsOrOne, avg]
  · show (List.foldl (genStep ⟨60, 1, 1, 0, ⟨100, 0, 100⟩, [0, 0, 9], fun _ => 0⟩)
      ⟨[], -999, -999, 0⟩ ([2] : List ℕ).enum).allNotes = _
    have henum : ([2] : List ℕ).enum = [(0, 2)] := rfl
    rw [henum, List.foldl_cons, c4_eval_step, List.foldl_nil]

theorem mkIntervals_pos : ∀ l : List ℕ, l.Chain' (· < ·) →
    ∀ x ∈ mkIntervals l, 1 ≤ x := by
  intro l
  induction l with
  | nil => intro _ x hx; simp [mkIntervals] at hx
  | cons a rest ih =>
    intro hch x hx
    cases rest with
    | nil => simp [mkIntervals] at hx
    | cons b t =>
      rw [mkIntervals] at hx
      rcases List.mem_cons.mp hx with rfl | hx
      · have hab : a < b := (List.chain'_cons.mp hch).1
        omega
      · exact ih (List.chain'_cons.mp hch).2 x hx

theorem clusterIntervals_some_mem (intervals : List ℤ) (tol v : ℤ)
    (h : clusterIntervals intervals tol = some v) : v ∈ intervals := by
  unfold clusterIntervals at h
  cases hs : sortByCountDesc (buildClusters tol intervals) with
  | nil => rw [hs] at h; exact absurd h (by simp)
  | cons c t =>
    rw [hs] at h
    simp only [List.head?_cons, Option.map_some', Option.some.injEq] at h
    have hc : c ∈ buildClusters tol intervals := by
      rw [← mem_sortByCountDesc, hs]
      exact List.mem_cons_self c t
    rw [← h]
    exact buildClusters_value_mem tol intervals c hc

/-- C3 (counterexample) — the BPM output can be exactly 180, outside the
half-open `[80, 180)` of the claim: four combined energy frames `[0,5,5,0]`
give the two onsets `[1, 2]` (a non-degenerate input), winning interval 1,
`secondsPerBeat = 512/1536 = 1/3`, BPM `= 180`, which `normalizeBPM` leaves
unchanged. -/
theorem C3_bpm_reaches_180 :
    estimateBPMHighPrecision [0, 5, 5, 0] [0, 0, 0, 0] 512 1536 = 180 ∧
    2 ≤ (detectPeaks (combineEnergies [0, 5, 5, 0] [0, 0, 0, 0]) (21 / 20)).length := by
  have hcomb : combineEnergies [0, 5, 5, 0] [0, 0, 0, 0] = [0, 5, 5, 0] := by
    unfold combineEnergies
    norm_num [List.enum]
  have hpk : detectPeaks [0, 5, 5, 0] (21 / 20) = [1, 2] := by
    unfold detectPeaks
    norm_num [avg, List.range', List.filter_cons]
  have hint : mkIntervals [1, 2] = [1] := by
    rw [mkIntervals, mkIntervals]
    norm_num
  have hcl : clusterIntervals [1] 2 = some 1 := by decide
  have hnorm : normalizeBPM 180 = 180 := by
    unfold normalizeBPM
    rw [doubleUp, dif_pos (by norm_num : (0 : ℚ) < 180),
      dif_neg (by norm_num : ¬ (180 : ℚ) < 80),
      halveDown, dif_neg (by norm_num : ¬ (180 : ℚ) < 180)]
    norm_num [round_eq]
  constructor
  · unfold estimateBPMHighPrecision
    dsimp only
    rw [hcomb, hpk]
    rw [if_neg (by norm_num), hint, hcl]
    show (if (1 : ℤ) = 0 then (120 : ℤ)
      else normalizeBPM (60 / (((1 : ℤ) : ℚ) * ((512 : ℕ) : ℚ) / 1536))) = 180
    rw [if_neg (by norm_num)]
    have harg : (60 : ℚ) / (((1 : ℤ) : ℚ) * ((512 : ℕ) : ℚ) / 1536) = 180 := by
      norm_num
    rw [harg, hnorm]
  · rw [hcomb, hpk]
    norm_num

/-- C3 (amended) — BPM bounds and fallback: `estimateBPMHighPrecision`
returns exactly 120 when fewer than 2 onsets are detected in the combined
kick+snare energies, and an integer BPM in the closed interval `[80, 180]`
whenever at least 2 onsets are detected (the endpoint 180 is attainable, so
the claim's half-open `[80, 180)` must be widened to `[80, 180]`). -/
theorem C3_bpm_bounds_and_fallback (kickE snareE : List ℚ) (fs : ℕ) (sr : ℚ)
    (hfs : 0 < fs) (hsr : 0 < sr) :
    ((detectPeaks (combineEnergies kickE snareE) (21 / 20)).length < 2 →
      estimateBPMHighPrecision kickE snareE fs sr = 120) ∧
    (2 ≤ (detectPeaks (combineEnergies kickE snareE) (21 / 20)).length →
      80 ≤ estimateBPMHighPrecision kickE snareE fs sr ∧
      estimateBPMHighPrecision kickE snareE fs sr ≤ 180) := by
  constructor
  · intro h
    unfold estimateBPMHighPrecision
    dsimp only
    rw [if_pos h]
  · intro h
    unfold estimateBPMHighPrecision
    dsimp only
    rw [if_neg (by omega)]
    cases hcl : clusterIntervals
        (mkIntervals (detectPeaks (combineEnergies kickE snareE) (21 / 20))) 2 with
    | none => norm_num
    | some v =>
      show 80 ≤ (if v = 0 then (120 : ℤ)
          else normalizeBPM (60 / ((v : ℚ) * ((fs : ℕ) : ℚ) / sr))) ∧
        (if v = 0 then (120 : ℤ)
          else normalizeBPM (60 / ((v : ℚ) * ((fs : ℕ) : ℚ) / sr))) ≤ 180
      by_cases hv : v = 0
      · rw [if_pos hv]
        norm_num
      · rw [if_neg hv]
        have hvmem : v ∈ mkIntervals (detectPeaks (combineEnergies kickE snareE) (21 / 20)) :=
          clusterIntervals_some_mem _ 2 v hcl
        have hv1 : 1 ≤ v :=
          mkIntervals_pos _ (detectPeaks_sorted _ _).chain' v hvmem
        have hbpm : (0 : ℚ) < 60 / ((v : ℚ) * (fs : ℚ) / sr) := by
          have hvq : (0 : ℚ) < (v : ℚ) := by exact_mod_cast hv1
          have hfsq : (0 : ℚ) < (fs : ℚ) := by exact_mod_cast hfs
          positivity
        exact normalizeBPM_bounds _ hbpm

theorem C3_bpm_bounds_and_fallback_witness :
    80 ≤ estimateBPMHighPrecision [0, 5, 5, 0] [0, 0, 0, 0] 512 1536 ∧
    estimateBPMHighPrecision [0, 5, 5, 0] [0, 0, 0, 0] 512 1536 ≤ 180 :=
  (C3_bpm_bounds_and_fallback [0, 5, 5, 0] [0, 0, 0, 0] 512 1536
    (by norm_num) (by norm_num)).2 (by
      have hcomb : combineEnergies [0, 5, 5, 0] [0, 0, 0, 0] = [0, 5, 5, 0] := by
        unfold combineEnergies
        norm_num [List.enum]
      have hpk : detectPeaks [0, 5, 5, 0] (21 / 20) = [1, 2] := by
        unfold detectPeaks
        norm_num [avg, List.range', List.filter_cons]
      rw [hcomb, hpk]
      norm_num)
